import Mathlib

/-!
Verification of the strchunk repository: a validated-UTF-8 chunk type
(`StrChunk`) and the incremental extraction algorithm `extract_utf8` that
carves a valid UTF-8 prefix out of a mutable byte buffer.

Bytes are modelled as natural numbers and byte buffers as `List Nat`.
`runValidation` is a faithful translation of the UTF-8 validation loop
underlying Rust's `str::from_utf8` (the function the repository calls):
it reports either success, or the offset of the longest valid prefix
(`valid_up_to`) together with `none` for an incomplete trailing sequence
or `some n` for a determinately malformed sequence of length `n`.
`extract_utf8` then mirrors `StrChunk::extract_utf8` from src/chunk.rs:
the mutable buffer is modelled by returning the remaining buffer contents
alongside the result.
-/

namespace Strchunk

/-- A validated text chunk: wraps a byte range (`Bytes` in the source). -/
structure StrChunk where
  bytes : List Nat
deriving DecidableEq

/-- The extraction error: an optional extracted valid prefix and the length
of the malformed byte sequence, mirroring `ExtractUtf8Error` in src/chunk.rs. -/
structure ExtractUtf8Error where
  extracted : Option StrChunk
  error_len : Nat
deriving DecidableEq

/-- Outcome of the UTF-8 validation scan: complete success, or failure data
consisting of the valid-up-to offset and an optional determinate error
length (mirroring Rust's `Utf8Error`). -/
inductive Utf8Result where
  | ok : Utf8Result
  | err (validUpTo : Nat) (errorLen : Option Nat) : Utf8Result
deriving DecidableEq

/-- A UTF-8 continuation byte, `0x80..=0xBF`. -/
def isCont (b : Nat) : Prop := 0x80 ≤ b ∧ b ≤ 0xBF

instance (b : Nat) : Decidable (isCont b) := by unfold isCont; infer_instance

/-- Allowed second byte of a three-byte sequence, by lead byte: the pair
ranges of Rust's validation loop for width-3 characters. -/
def validSecond3 (b c2 : Nat) : Prop :=
  (b = 0xE0 ∧ 0xA0 ≤ c2 ∧ c2 ≤ 0xBF) ∨
  (0xE1 ≤ b ∧ b ≤ 0xEC ∧ 0x80 ≤ c2 ∧ c2 ≤ 0xBF) ∨
  (b = 0xED ∧ 0x80 ≤ c2 ∧ c2 ≤ 0x9F) ∨
  (0xEE ≤ b ∧ b ≤ 0xEF ∧ 0x80 ≤ c2 ∧ c2 ≤ 0xBF)

instance (b c2 : Nat) : Decidable (validSecond3 b c2) := by
  unfold validSecond3; infer_instance

/-- Allowed second byte of a four-byte sequence, by lead byte: the pair
ranges of Rust's validation loop for width-4 characters. -/
def validSecond4 (b c2 : Nat) : Prop :=
  (b = 0xF0 ∧ 0x90 ≤ c2 ∧ c2 ≤ 0xBF) ∨
  (0xF1 ≤ b ∧ b ≤ 0xF3 ∧ 0x80 ≤ c2 ∧ c2 ≤ 0xBF) ∨
  (b = 0xF4 ∧ 0x80 ≤ c2 ∧ c2 ≤ 0x8F)

instance (b c2 : Nat) : Decidable (validSecond4 b c2) := by
  unfold validSecond4; infer_instance

/-- The UTF-8 validation loop of Rust's `str::from_utf8`
(`run_utf8_validation`), translated directly: `i` is the index of the
current character's first byte; on failure it reports `i` as the
valid-up-to offset, with error length `none` when the buffer ended inside
a possibly-valid sequence and `some n` when the bytes are conclusively
malformed. -/
def runValidation (i : Nat) : List Nat → Utf8Result
  | [] => .ok
  | b :: rest =>
    if b < 0x80 then
      runValidation (i + 1) rest
    else if 0xC2 ≤ b ∧ b ≤ 0xDF then
      match rest with
      | [] => .err i none
      | c2 :: rest2 =>
        if isCont c2 then runValidation (i + 2) rest2
        else .err i (some 1)
    else if 0xE0 ≤ b ∧ b ≤ 0xEF then
      match rest with
      | [] => .err i none
      | c2 :: rest2 =>
        if validSecond3 b c2 then
          match rest2 with
          | [] => .err i none
          | c3 :: rest3 =>
            if isCont c3 then runValidation (i + 3) rest3
            else .err i (some 2)
        else .err i (some 1)
    else if 0xF0 ≤ b ∧ b ≤ 0xF4 then
      match rest with
      | [] => .err i none
      | c2 :: rest2 =>
        if validSecond4 b c2 then
          match rest2 with
          | [] => .err i none
          | c3 :: rest3 =>
            if isCont c3 then
              match rest3 with
              | [] => .err i none
              | c4 :: rest4 =>
                if isCont c4 then runValidation (i + 4) rest4
                else .err i (some 3)
            else .err i (some 2)
        else .err i (some 1)
    else .err i (some 1)

/-- `StrChunk::extract_utf8` from src/chunk.rs. The mutable source buffer
is modelled functionally: the second component of the result is the
buffer's contents after the call. On full validity the whole buffer is
drained into a chunk; otherwise the valid prefix (if nonempty) is split
off, and the failure is classified as incomplete (`Ok`) or determinate
(`Err` carrying the extracted prefix and the error length). -/
def extract_utf8 (src : List Nat) :
    Except ExtractUtf8Error (Option StrChunk) × List Nat :=
  match runValidation 0 src with
  | .ok => (.ok (some ⟨src⟩), [])
  | .err validLen errLen =>
    let extracted : Option StrChunk :=
      if validLen = 0 then none else some ⟨src.take validLen⟩
    match errLen with
    | none => (.ok extracted, src.drop validLen)
    | some n => (.error ⟨extracted, n⟩, src.drop validLen)

/-- Bytes of the extracted prefix of an extraction result: the chunk inside
an `Ok some`, the extracted field of an error, empty otherwise. -/
def resultExtractedBytes : Except ExtractUtf8Error (Option StrChunk) → List Nat
  | .ok (some c) => c.bytes
  | .ok none => []
  | .error e =>
    match e.extracted with
    | some c => c.bytes
    | none => []

/-- Bytes of an optional chunk. -/
def optBytes : Option StrChunk → List Nat
  | none => []
  | some c => c.bytes

/-- `StrChunk::from_static`: wraps the bytes of a static string. -/
def StrChunk.from_static (s : List Nat) : StrChunk := ⟨s⟩

/-- Conversion of an owned string (its bytes) into a chunk
(the `From<String> for StrChunk` impl). -/
def strChunkFromString (s : List Nat) : StrChunk := ⟨s⟩

/-- Conversion of a string slice (its bytes) into a chunk
(the `From<&str> for StrChunk` impl). -/
def strChunkFromStr (s : List Nat) : StrChunk := ⟨s⟩

/-- `StrChunk::as_str`: the chunk's bytes viewed as text
(`str::from_utf8_unchecked` performs no transformation). -/
def StrChunk.as_str (c : StrChunk) : List Nat := c.bytes

/-- Conversion of a chunk into an owned string (the
`From<StrChunk> for String` impl), which copies `as_str`'s bytes. -/
def stringFromStrChunk (c : StrChunk) : List Nat := c.as_str

/-- The standard UTF-8 encoding of a code point, by value range. -/
def encodeChar (c : Nat) : List Nat :=
  if c < 0x80 then [c]
  else if c < 0x800 then [0xC0 + c / 64, 0x80 + c % 64]
  else if c < 0x10000 then
    [0xE0 + c / 4096, 0x80 + c / 64 % 64, 0x80 + c % 64]
  else
    [0xF0 + c / 0x40000, 0x80 + c / 4096 % 64, 0x80 + c / 64 % 64,
      0x80 + c % 64]

/-- A Unicode scalar value: a code point that is not a surrogate. -/
def IsScalar (c : Nat) : Prop := c < 0x110000 ∧ (c < 0xD800 ∨ 0xDFFF < c)

instance (c : Nat) : Decidable (IsScalar c) := by unfold IsScalar; infer_instance

/-- A byte list is valid UTF-8 when it is the concatenation of the
encodings of some sequence of Unicode scalar values. -/
def IsValidUtf8 (l : List Nat) : Prop :=
  ∃ cs : List Nat, (∀ c ∈ cs, IsScalar c) ∧ l = (cs.map encodeChar).flatten

/-- A byte list that can be completed, by appending further bytes, into a
valid UTF-8 byte sequence. -/
def ExtendsToValid (p : List Nat) : Prop := ∃ ext, IsValidUtf8 (p ++ ext)

/-- A nonempty truncation of the encoding of some scalar value: the byte
list is a strictly shorter initial segment of a valid encoding. -/
def EncFragment (p : List Nat) : Prop :=
  ∃ c, IsScalar c ∧ p <+: encodeChar c ∧ p.length < (encodeChar c).length

/-- `n` is the length of the malformed run at the front of `src`: the
maximal subpart of the ill-formed sequence, i.e. the longest initial
segment of `src` that is a truncation of some valid encoding, floored at
one byte. -/
def IsMalformedRun (src : List Nat) (n : Nat) : Prop :=
  1 ≤ n ∧ n ≤ src.length ∧ (n = 1 ∨ EncFragment (src.take n)) ∧
  ∀ m, n < m → m ≤ src.length → ¬ EncFragment (src.take m)

/-- Modelled from the spec: the `FromIterator<char>` construction path
delegates to the companion builder `StrChunkMut`, whose source is not part
of this repository; per the spec it "accumulates characters and finalizes
into a chunk", each character being a Unicode scalar value appended in its
UTF-8 encoding. -/
def strChunkFromChars (cs : List Nat) : StrChunk :=
  ⟨(cs.map encodeChar).flatten⟩

/-- A byte that can never begin a UTF-8 character: a stray continuation
byte, an overlong-only lead (0xC0/0xC1), or a byte above 0xF4. -/
def badLead (b : Nat) : Prop := (0x80 ≤ b ∧ b ≤ 0xC1) ∨ 0xF5 ≤ b

instance (b : Nat) : Decidable (badLead b) := by unfold badLead; infer_instance

theorem rv_nil (i : Nat) : runValidation i [] = .ok := rfl

theorem rv_ascii (i b : Nat) (rest : List Nat) (h : b < 0x80) :
    runValidation i (b :: rest) = runValidation (i + 1) rest := by
  rw [runValidation.eq_def]
  simp [h]

theorem rv_bad_lead (i b : Nat) (rest : List Nat) (h : badLead b) :
    runValidation i (b :: rest) = .err i (some 1) := by
  unfold badLead at h
  have h1 : ¬ b < 0x80 := by omega
  have h2 : ¬ (0xC2 ≤ b ∧ b ≤ 0xDF) := by omega
  have h3 : ¬ (0xE0 ≤ b ∧ b ≤ 0xEF) := by omega
  have h4 : ¬ (0xF0 ≤ b ∧ b ≤ 0xF4) := by omega
  cases rest <;> (rw [runValidation.eq_def]; simp [h1, h2, h3, h4])

theorem rv_two_end (i b : Nat) (h1 : 0xC2 ≤ b) (h2 : b ≤ 0xDF) :
    runValidation i [b] = .err i none := by
  have h0 : ¬ b < 0x80 := by omega
  rw [runValidation.eq_def]
  simp [h0, h1, h2]

theorem rv_two_step (i b c2 : Nat) (rest : List Nat)
    (h1 : 0xC2 ≤ b) (h2 : b ≤ 0xDF) (hc : isCont c2) :
    runValidation i (b :: c2 :: rest) = runValidation (i + 2) rest := by
  have h0 : ¬ b < 0x80 := by omega
  rw [runValidation.eq_def]
  simp [h0, h1, h2, hc]

theorem rv_two_bad (i b c2 : Nat) (rest : List Nat)
    (h1 : 0xC2 ≤ b) (h2 : b ≤ 0xDF) (hc : ¬ isCont c2) :
    runValidation i (b :: c2 :: rest) = .err i (some 1) := by
  have h0 : ¬ b < 0x80 := by omega
  rw [runValidation.eq_def]
  simp [h0, h1, h2, hc]

theorem rv_three_end1 (i b : Nat) (h1 : 0xE0 ≤ b) (h2 : b ≤ 0xEF) :
    runValidation i [b] = .err i none := by
  have h0 : ¬ b < 0x80 := by omega
  have h3 : ¬ (0xC2 ≤ b ∧ b ≤ 0xDF) := by omega
  rw [runValidation.eq_def]
  simp [h0, h3, h1, h2]

theorem rv_three_bad2 (i b c2 : Nat) (rest : List Nat)
    (h1 : 0xE0 ≤ b) (h2 : b ≤ 0xEF) (hv : ¬ validSecond3 b c2) :
    runValidation i (b :: c2 :: rest) = .err i (some 1) := by
  have h0 : ¬ b < 0x80 := by omega
  have h3 : ¬ (0xC2 ≤ b ∧ b ≤ 0xDF) := by omega
  rw [runValidation.eq_def]
  simp [h0, h3, h1, h2, hv]

theorem rv_three_end2 (i b c2 : Nat)
    (h1 : 0xE0 ≤ b) (h2 : b ≤ 0xEF) (hv : validSecond3 b c2) :
    runValidation i [b, c2] = .err i none := by
  have h0 : ¬ b < 0x80 := by omega
  have h3 : ¬ (0xC2 ≤ b ∧ b ≤ 0xDF) := by omega
  rw [runValidation.eq_def]
  simp [h0, h3, h1, h2, hv]

theorem rv_three_bad3 (i b c2 c3 : Nat) (rest : List Nat)
    (h1 : 0xE0 ≤ b) (h2 : b ≤ 0xEF) (hv : validSecond3 b c2)
    (hc : ¬ isCont c3) :
    runValidation i (b :: c2 :: c3 :: rest) = .err i (some 2) := by
  have h0 : ¬ b < 0x80 := by omega
  have h3 : ¬ (0xC2 ≤ b ∧ b ≤ 0xDF) := by omega
  rw [runValidation.eq_def]
  simp [h0, h3, h1, h2, hv, hc]

theorem rv_three_step (i b c2 c3 : Nat) (rest : List Nat)
    (h1 : 0xE0 ≤ b) (h2 : b ≤ 0xEF) (hv : validSecond3 b c2)
    (hc : isCont c3) :
    runValidation i (b :: c2 :: c3 :: rest) = runValidation (i + 3) rest := by
  have h0 : ¬ b < 0x80 := by omega
  have h3 : ¬ (0xC2 ≤ b ∧ b ≤ 0xDF) := by omega
  rw [runValidation.eq_def]
  simp [h0, h3, h1, h2, hv, hc]

theorem rv_four_end1 (i b : Nat) (h1 : 0xF0 ≤ b) (h2 : b ≤ 0xF4) :
    runValidation i [b] = .err i none := by
  have h0 : ¬ b < 0x80 := by omega
  have h3 : ¬ (0xC2 ≤ b ∧ b ≤ 0xDF) := by omega
  have h4 : ¬ (0xE0 ≤ b ∧ b ≤ 0xEF) := by omega
  rw [runValidation.eq_def]
  simp [h0, h3, h4, h1, h2]

theorem rv_four_bad2 (i b c2 : Nat) (rest : List Nat)
    (h1 : 0xF0 ≤ b) (h2 : b ≤ 0xF4) (hv : ¬ validSecond4 b c2) :
    runValidation i (b :: c2 :: rest) = .err i (some 1) := by
  have h0 : ¬ b < 0x80 := by omega
  have h3 : ¬ (0xC2 ≤ b ∧ b ≤ 0xDF) := by omega
  have h4 : ¬ (0xE0 ≤ b ∧ b ≤ 0xEF) := by omega
  rw [runValidation.eq_def]
  simp [h0, h3, h4, h1, h2, hv]

theorem rv_four_end2 (i b c2 : Nat)
    (h1 : 0xF0 ≤ b) (h2 : b ≤ 0xF4) (hv : validSecond4 b c2) :
    runValidation i [b, c2] = .err i none := by
  have h0 : ¬ b < 0x80 := by omega
  have h3 : ¬ (0xC2 ≤ b ∧ b ≤ 0xDF) := by omega
  have h4 : ¬ (0xE0 ≤ b ∧ b ≤ 0xEF) := by omega
  rw [runValidation.eq_def]
  simp [h0, h3, h4, h1, h2, hv]

theorem rv_four_bad3 (i b c2 c3 : Nat) (rest : List Nat)
    (h1 : 0xF0 ≤ b) (h2 : b ≤ 0xF4) (hv : validSecond4 b c2)
    (hc : ¬ isCont c3) :
    runValidation i (b :: c2 :: c3 :: rest) = .err i (some 2) := by
  have h0 : ¬ b < 0x80 := by omega
  have h3 : ¬ (0xC2 ≤ b ∧ b ≤ 0xDF) := by omega
  have h4 : ¬ (0xE0 ≤ b ∧ b ≤ 0xEF) := by omega
  rw [runValidation.eq_def]
  simp [h0, h3, h4, h1, h2, hv, hc]

theorem rv_four_end3 (i b c2 c3 : Nat)
    (h1 : 0xF0 ≤ b) (h2 : b ≤ 0xF4) (hv : validSecond4 b c2)
    (hc : isCont c3) :
    runValidation i [b, c2, c3] = .err i none := by
  have h0 : ¬ b < 0x80 := by omega
  have h3 : ¬ (0xC2 ≤ b ∧ b ≤ 0xDF) := by omega
  have h4 : ¬ (0xE0 ≤ b ∧ b ≤ 0xEF) := by omega
  rw [runValidation.eq_def]
  simp [h0, h3, h4, h1, h2, hv, hc]

theorem rv_four_bad4 (i b c2 c3 c4 : Nat) (rest : List Nat)
    (h1 : 0xF0 ≤ b) (h2 : b ≤ 0xF4) (hv : validSecond4 b c2)
    (hc : isCont c3) (hd : ¬ isCont c4) :
    runValidation i (b :: c2 :: c3 :: c4 :: rest) = .err i (some 3) := by
  have h0 : ¬ b < 0x80 := by omega
  have h3 : ¬ (0xC2 ≤ b ∧ b ≤ 0xDF) := by omega
  have h4 : ¬ (0xE0 ≤ b ∧ b ≤ 0xEF) := by omega
  rw [runValidation.eq_def]
  simp [h0, h3, h4, h1, h2, hv, hc, hd]

theorem rv_four_step (i b c2 c3 c4 : Nat) (rest : List Nat)
    (h1 : 0xF0 ≤ b) (h2 : b ≤ 0xF4) (hv : validSecond4 b c2)
    (hc : isCont c3) (hd : isCont c4) :
    runValidation i (b :: c2 :: c3 :: c4 :: rest) = runValidation (i + 4) rest := by
  have h0 : ¬ b < 0x80 := by omega
  have h3 : ¬ (0xC2 ≤ b ∧ b ≤ 0xDF) := by omega
  have h4 : ¬ (0xE0 ≤ b ∧ b ≤ 0xEF) := by omega
  rw [runValidation.eq_def]
  simp [h0, h3, h4, h1, h2, hv, hc, hd]

theorem encodeChar_one (c : Nat) (h : c < 0x80) : encodeChar c = [c] := by
  simp [encodeChar, h]

theorem encodeChar_two (c : Nat) (h1 : 0x80 ≤ c) (h2 : c < 0x800) :
    encodeChar c = [0xC0 + c / 64, 0x80 + c % 64] := by
  have h0 : ¬ c < 0x80 := by omega
  simp [encodeChar, h0, h2]

theorem encodeChar_three (c : Nat) (h1 : 0x800 ≤ c) (h2 : c < 0x10000) :
    encodeChar c = [0xE0 + c / 4096, 0x80 + c / 64 % 64, 0x80 + c % 64] := by
  have h0 : ¬ c < 0x80 := by omega
  have h3 : ¬ c < 0x800 := by omega
  simp [encodeChar, h0, h3, h2]

theorem encodeChar_four (c : Nat) (h1 : 0x10000 ≤ c) :
    encodeChar c = [0xF0 + c / 0x40000, 0x80 + c / 4096 % 64,
      0x80 + c / 64 % 64, 0x80 + c % 64] := by
  have h0 : ¬ c < 0x80 := by omega
  have h3 : ¬ c < 0x800 := by omega
  have h4 : ¬ c < 0x10000 := by omega
  simp [encodeChar, h0, h3, h4]

theorem encodeChar_length_pos (c : Nat) : 1 ≤ (encodeChar c).length := by
  unfold encodeChar
  split <;> simp_all
  split <;> simp_all
  split <;> simp_all

/-- The validator consumes the encoding of one scalar value and continues. -/
theorem rv_enc_step (c : Nat) (hc : IsScalar c) (i : Nat) (rest : List Nat) :
    runValidation i (encodeChar c ++ rest) =
      runValidation (i + (encodeChar c).length) rest := by
  obtain ⟨hlt, hsur⟩ := hc
  by_cases h1 : c < 0x80
  · rw [encodeChar_one c h1]
    simpa using rv_ascii i c rest h1
  · by_cases h2 : c < 0x800
    · rw [encodeChar_two c (by omega) h2]
      have hb1 : 0xC2 ≤ 0xC0 + c / 64 := by omega
      have hb2 : 0xC0 + c / 64 ≤ 0xDF := by omega
      have hcont : isCont (0x80 + c % 64) := by unfold isCont; omega
      simpa using rv_two_step i _ _ rest hb1 hb2 hcont
    · by_cases h3 : c < 0x10000
      · rw [encodeChar_three c (by omega) h3]
        have hb1 : 0xE0 ≤ 0xE0 + c / 4096 := by omega
        have hb2 : 0xE0 + c / 4096 ≤ 0xEF := by omega
        have hvs : validSecond3 (0xE0 + c / 4096) (0x80 + c / 64 % 64) := by
          unfold validSecond3; omega
        have hcont : isCont (0x80 + c % 64) := by unfold isCont; omega
        simpa using rv_three_step i _ _ _ rest hb1 hb2 hvs hcont
      · rw [encodeChar_four c (by omega)]
        have hb1 : 0xF0 ≤ 0xF0 + c / 0x40000 := by omega
        have hb2 : 0xF0 + c / 0x40000 ≤ 0xF4 := by omega
        have hvs : validSecond4 (0xF0 + c / 0x40000) (0x80 + c / 4096 % 64) := by
          unfold validSecond4; omega
        have hc3 : isCont (0x80 + c / 64 % 64) := by unfold isCont; omega
        have hc4 : isCont (0x80 + c % 64) := by unfold isCont; omega
        simpa using rv_four_step i _ _ _ _ rest hb1 hb2 hvs hc3 hc4

/-- The validator runs through a valid UTF-8 segment and continues. -/
theorem rv_valid_step (v : List Nat) (hv : IsValidUtf8 v) (i : Nat)
    (rest : List Nat) :
    runValidation i (v ++ rest) = runValidation (i + v.length) rest := by
  obtain ⟨cs, hcs, rfl⟩ := hv
  induction cs generalizing i with
  | nil => simp
  | cons c cs ih =>
    have hstep := rv_enc_step c (hcs c (by simp)) i
      ((cs.map encodeChar).flatten ++ rest)
    simp only [List.map_cons, List.flatten_cons, List.append_assoc]
    rw [hstep, ih _ (fun x hx => hcs x (List.mem_cons_of_mem _ hx))]
    congr 1
    simp
    omega

/-- The validator accepts every valid UTF-8 byte list. -/
theorem rv_valid_ok (l : List Nat) (hv : IsValidUtf8 l) (i : Nat) :
    runValidation i l = .ok := by
  have := rv_valid_step l hv i []
  simpa using this

/-- On a nonempty truncated encoding the validator reports an incomplete
sequence at its start. -/
theorem rv_fragment_err (p : List Nat) (hp : EncFragment p) (hne : p ≠ [])
    (i : Nat) : runValidation i p = .err i none := by
  obtain ⟨c, ⟨hlt, hsur⟩, hpre, hplen⟩ := hp
  have hptake : p = (encodeChar c).take p.length := by
    rw [List.prefix_iff_eq_take] at hpre
    exact hpre
  have hplen1 : 1 ≤ p.length := by
    cases p with
    | nil => simp at hne
    | cons a l => simp
  by_cases h1 : c < 0x80
  · rw [encodeChar_one c h1] at hplen
    simp only [List.length_singleton] at hplen
    omega
  · by_cases h2 : c < 0x800
    · rw [encodeChar_two c (by omega) h2] at hptake hplen
      simp at hplen
      have hl1 : p.length = 1 := by omega
      rw [hl1] at hptake
      simp at hptake
      rw [hptake]
      exact rv_two_end i _ (by omega) (by omega)
    · by_cases h3 : c < 0x10000
      · rw [encodeChar_three c (by omega) h3] at hptake hplen
        simp at hplen
        have hb1 : 0xE0 ≤ 0xE0 + c / 4096 := by omega
        have hb2 : 0xE0 + c / 4096 ≤ 0xEF := by omega
        have hvs : validSecond3 (0xE0 + c / 4096) (0x80 + c / 64 % 64) := by
          unfold validSecond3; omega
        rcases (by omega : p.length = 1 ∨ p.length = 2) with hl | hl <;>
          rw [hl] at hptake <;> simp at hptake <;> rw [hptake]
        · exact rv_three_end1 i _ hb1 hb2
        · exact rv_three_end2 i _ _ hb1 hb2 hvs
      · rw [encodeChar_four c (by omega)] at hptake hplen
        simp at hplen
        have hb1 : 0xF0 ≤ 0xF0 + c / 0x40000 := by omega
        have hb2 : 0xF0 + c / 0x40000 ≤ 0xF4 := by omega
        have hvs : validSecond4 (0xF0 + c / 0x40000) (0x80 + c / 4096 % 64) := by
          unfold validSecond4; omega
        have hc3 : isCont (0x80 + c / 64 % 64) := by unfold isCont; omega
        rcases (by omega : p.length = 1 ∨ p.length = 2 ∨ p.length = 3)
          with hl | hl | hl <;>
          rw [hl] at hptake <;> simp at hptake <;> rw [hptake]
        · exact rv_four_end1 i _ hb1 hb2
        · exact rv_four_end2 i _ _ hb1 hb2 hvs
        · exact rv_four_end3 i _ _ _ hb1 hb2 hvs hc3

theorem isValidUtf8_nil : IsValidUtf8 [] := ⟨[], by simp, by simp⟩

/-- Prepending one encoded scalar to a valid byte list keeps it valid. -/
theorem isValidUtf8_enc_append (c : Nat) (hc : IsScalar c) (t : List Nat)
    (ht : IsValidUtf8 t) : IsValidUtf8 (encodeChar c ++ t) := by
  obtain ⟨cs, h1, rfl⟩ := ht
  refine ⟨c :: cs, ?_, by simp⟩
  intro x hx
  rcases List.mem_cons.mp hx with rfl | hx
  · exact hc
  · exact h1 x hx

/-- A two-byte sequence accepted by the validator is the encoding of a
scalar value. -/
theorem enc_two_eq (b c2 : Nat) (h1 : 0xC2 ≤ b) (h2 : b ≤ 0xDF)
    (hc : isCont c2) :
    IsScalar ((b - 0xC0) * 64 + (c2 - 0x80)) ∧
    encodeChar ((b - 0xC0) * 64 + (c2 - 0x80)) = [b, c2] := by
  obtain ⟨hc1, hc2⟩ := hc
  constructor
  · unfold IsScalar; omega
  · rw [encodeChar_two _ (by omega) (by omega)]
    simp only [List.cons.injEq, and_true]
    omega

/-- A three-byte sequence accepted by the validator is the encoding of a
scalar value (the second-byte table excludes surrogates and overlongs). -/
theorem enc_three_eq (b c2 c3 : Nat) (h1 : 0xE0 ≤ b) (h2 : b ≤ 0xEF)
    (hv : validSecond3 b c2) (hc : isCont c3) :
    IsScalar ((b - 0xE0) * 4096 + (c2 - 0x80) * 64 + (c3 - 0x80)) ∧
    encodeChar ((b - 0xE0) * 4096 + (c2 - 0x80) * 64 + (c3 - 0x80))
      = [b, c2, c3] := by
  unfold validSecond3 at hv
  obtain ⟨hc1, hc2⟩ := hc
  constructor
  · unfold IsScalar; omega
  · rw [encodeChar_three _ (by omega) (by omega)]
    simp only [List.cons.injEq, and_true]
    omega

/-- A four-byte sequence accepted by the validator is the encoding of a
scalar value (the second-byte table bounds the value by 0x10FFFF). -/
theorem enc_four_eq (b c2 c3 c4 : Nat) (h1 : 0xF0 ≤ b) (h2 : b ≤ 0xF4)
    (hv : validSecond4 b c2) (hc : isCont c3) (hd : isCont c4) :
    IsScalar ((b - 0xF0) * 0x40000 + (c2 - 0x80) * 4096
        + (c3 - 0x80) * 64 + (c4 - 0x80)) ∧
    encodeChar ((b - 0xF0) * 0x40000 + (c2 - 0x80) * 4096
        + (c3 - 0x80) * 64 + (c4 - 0x80)) = [b, c2, c3, c4] := by
  unfold validSecond4 at hv
  obtain ⟨hc1, hc2⟩ := hc
  obtain ⟨hd1, hd2⟩ := hd
  constructor
  · unfold IsScalar; omega
  · rw [encodeChar_four _ (by omega)]
    simp only [List.cons.injEq, and_true]
    omega

/-- Soundness of the validator: on success the whole input is valid UTF-8;
on failure the reported valid-up-to offset is in range, the input up to it
is valid UTF-8, and any determinate error length is between 1 and 3. -/
theorem rv_sound (i : Nat) (l : List Nat) :
    (runValidation i l = .ok → IsValidUtf8 l) ∧
    (∀ u e, runValidation i l = .err u e →
      i ≤ u ∧ u - i ≤ l.length ∧ IsValidUtf8 (l.take (u - i)) ∧
      ∀ n, e = some n → 1 ≤ n ∧ n ≤ 3) := by
  induction i, l using runValidation.induct with
  | case1 i =>
    refine ⟨fun _ => isValidUtf8_nil, ?_⟩
    intro u e h
    rw [rv_nil] at h
    simp at h
  | case2 i b rest h ih =>
    have hrv := rv_ascii i b rest h
    have hsc : IsScalar b := by unfold IsScalar; omega
    constructor
    · intro hok
      rw [hrv] at hok
      have := isValidUtf8_enc_append b hsc rest (ih.1 hok)
      rw [encodeChar_one b h] at this
      simpa using this
    · intro u e herr
      rw [hrv] at herr
      obtain ⟨hu, hlen, hval, hbnd⟩ := ih.2 u e herr
      refine ⟨by omega, by simp; omega, ?_, hbnd⟩
      have hk : u - i = (u - (i + 1)) + 1 := by omega
      rw [hk, List.take_succ_cons]
      have := isValidUtf8_enc_append b hsc _ hval
      rw [encodeChar_one b h] at this
      simpa using this
  | case3 i b h0 hr =>
    have hrv := rv_two_end i b hr.1 hr.2
    refine ⟨?_, ?_⟩
    · intro h; rw [hrv] at h; simp at h
    · intro u e h
      rw [hrv] at h
      simp only [Utf8Result.err.injEq] at h
      obtain ⟨h1, h2⟩ := h
      subst h1
      subst h2
      refine ⟨le_refl _, by simp, by simpa using isValidUtf8_nil, ?_⟩
      intro n hn
      first
      | exact Option.noConfusion hn
      | (simp only [Option.some.injEq] at hn; omega)
  | case4 i b h0 hr c2 rest2 hc ih =>
    obtain ⟨hsc, henc⟩ := enc_two_eq b c2 hr.1 hr.2 hc
    have hrv := rv_two_step i b c2 rest2 hr.1 hr.2 hc
    constructor
    · intro hok
      rw [hrv] at hok
      have := isValidUtf8_enc_append _ hsc rest2 (ih.1 hok)
      rw [henc] at this
      simpa using this
    · intro u e herr
      rw [hrv] at herr
      obtain ⟨hu, hlen, hval, hbnd⟩ := ih.2 u e herr
      refine ⟨by omega, by simp; omega, ?_, hbnd⟩
      have hk : u - i = (u - (i + 2)) + 1 + 1 := by omega
      rw [hk, List.take_succ_cons, List.take_succ_cons]
      have := isValidUtf8_enc_append _ hsc _ hval
      rw [henc] at this
      simpa using this
  | case5 i b h0 hr c2 rest2 hc =>
    have hrv := rv_two_bad i b c2 rest2 hr.1 hr.2 hc
    refine ⟨?_, ?_⟩
    · intro h; rw [hrv] at h; simp at h
    · intro u e h
      rw [hrv] at h
      simp only [Utf8Result.err.injEq] at h
      obtain ⟨h1, h2⟩ := h
      subst h1
      subst h2
      refine ⟨le_refl _, by simp, by simpa using isValidUtf8_nil, ?_⟩
      intro n hn
      first
      | exact Option.noConfusion hn
      | (simp only [Option.some.injEq] at hn; omega)
  | case6 i b h0 h2n hr =>
    have hrv := rv_three_end1 i b hr.1 hr.2
    refine ⟨?_, ?_⟩
    · intro h; rw [hrv] at h; simp at h
    · intro u e h
      rw [hrv] at h
      simp only [Utf8Result.err.injEq] at h
      obtain ⟨h1, h2⟩ := h
      subst h1
      subst h2
      refine ⟨le_refl _, by simp, by simpa using isValidUtf8_nil, ?_⟩
      intro n hn
      first
      | exact Option.noConfusion hn
      | (simp only [Option.some.injEq] at hn; omega)
  | case7 i b h0 h2n hr c2 hv =>
    have hrv := rv_three_end2 i b c2 hr.1 hr.2 hv
    refine ⟨?_, ?_⟩
    · intro h; rw [hrv] at h; simp at h
    · intro u e h
      rw [hrv] at h
      simp only [Utf8Result.err.injEq] at h
      obtain ⟨h1, h2⟩ := h
      subst h1
      subst h2
      refine ⟨le_refl _, by simp, by simpa using isValidUtf8_nil, ?_⟩
      intro n hn
      first
      | exact Option.noConfusion hn
      | (simp only [Option.some.injEq] at hn; omega)
  | case8 i b h0 h2n hr c2 hv c3 rest2 hc ih =>
    obtain ⟨hsc, henc⟩ := enc_three_eq b c2 c3 hr.1 hr.2 hv hc
    have hrv := rv_three_step i b c2 c3 rest2 hr.1 hr.2 hv hc
    constructor
    · intro hok
      rw [hrv] at hok
      have := isValidUtf8_enc_append _ hsc rest2 (ih.1 hok)
      rw [henc] at this
      simpa using this
    · intro u e herr
      rw [hrv] at herr
      obtain ⟨hu, hlen, hval, hbnd⟩ := ih.2 u e herr
      refine ⟨by omega, by simp; omega, ?_, hbnd⟩
      have hk : u - i = (u - (i + 3)) + 1 + 1 + 1 := by omega
      rw [hk, List.take_succ_cons, List.take_succ_cons, List.take_succ_cons]
      have := isValidUtf8_enc_append _ hsc _ hval
      rw [henc] at this
      simpa using this
  | case9 i b h0 h2n hr c2 hv c3 rest2 hc =>
    have hrv := rv_three_bad3 i b c2 c3 rest2 hr.1 hr.2 hv hc
    refine ⟨?_, ?_⟩
    · intro h; rw [hrv] at h; simp at h
    · intro u e h
      rw [hrv] at h
      simp only [Utf8Result.err.injEq] at h
      obtain ⟨h1, h2⟩ := h
      subst h1
      subst h2
      refine ⟨le_refl _, by simp, by simpa using isValidUtf8_nil, ?_⟩
      intro n hn
      first
      | exact Option.noConfusion hn
      | (simp only [Option.some.injEq] at hn; omega)
  | case10 i b h0 h2n hr c2 rest2 hv =>
    have hrv := rv_three_bad2 i b c2 rest2 hr.1 hr.2 hv
    refine ⟨?_, ?_⟩
    · intro h; rw [hrv] at h; simp at h
    · intro u e h
      rw [hrv] at h
      simp only [Utf8Result.err.injEq] at h
      obtain ⟨h1, h2⟩ := h
      subst h1
      subst h2
      refine ⟨le_refl _, by simp, by simpa using isValidUtf8_nil, ?_⟩
      intro n hn
      first
      | exact Option.noConfusion hn
      | (simp only [Option.some.injEq] at hn; omega)
  | case11 i b h0 h2n h3n hr =>
    have hrv := rv_four_end1 i b hr.1 hr.2
    refine ⟨?_, ?_⟩
    · intro h; rw [hrv] at h; simp at h
    · intro u e h
      rw [hrv] at h
      simp only [Utf8Result.err.injEq] at h
      obtain ⟨h1, h2⟩ := h
      subst h1
      subst h2
      refine ⟨le_refl _, by simp, by simpa using isValidUtf8_nil, ?_⟩
      intro n hn
      first
      | exact Option.noConfusion hn
      | (simp only [Option.some.injEq] at hn; omega)
  | case12 i b h0 h2n h3n hr c2 hv =>
    have hrv := rv_four_end2 i b c2 hr.1 hr.2 hv
    refine ⟨?_, ?_⟩
    · intro h; rw [hrv] at h; simp at h
    · intro u e h
      rw [hrv] at h
      simp only [Utf8Result.err.injEq] at h
      obtain ⟨h1, h2⟩ := h
      subst h1
      subst h2
      refine ⟨le_refl _, by simp, by simpa using isValidUtf8_nil, ?_⟩
      intro n hn
      first
      | exact Option.noConfusion hn
      | (simp only [Option.some.injEq] at hn; omega)
  | case13 i b h0 h2n h3n hr c2 hv c3 hc =>
    have hrv := rv_four_end3 i b c2 c3 hr.1 hr.2 hv hc
    refine ⟨?_, ?_⟩
    · intro h; rw [hrv] at h; simp at h
    · intro u e h
      rw [hrv] at h
      simp only [Utf8Result.err.injEq] at h
      obtain ⟨h1, h2⟩ := h
      subst h1
      subst h2
      refine ⟨le_refl _, by simp, by simpa using isValidUtf8_nil, ?_⟩
      intro n hn
      first
      | exact Option.noConfusion hn
      | (simp only [Option.some.injEq] at hn; omega)
  | case14 i b h0 h2n h3n hr c2 hv c3 hc c4 rest2 hd ih =>
    obtain ⟨hsc, henc⟩ := enc_four_eq b c2 c3 c4 hr.1 hr.2 hv hc hd
    have hrv := rv_four_step i b c2 c3 c4 rest2 hr.1 hr.2 hv hc hd
    constructor
    · intro hok
      rw [hrv] at hok
      have := isValidUtf8_enc_append _ hsc rest2 (ih.1 hok)
      rw [henc] at this
      simpa using this
    · intro u e herr
      rw [hrv] at herr
      obtain ⟨hu, hlen, hval, hbnd⟩ := ih.2 u e herr
      refine ⟨by omega, by simp; omega, ?_, hbnd⟩
      have hk : u - i = (u - (i + 4)) + 1 + 1 + 1 + 1 := by omega
      rw [hk, List.take_succ_cons, List.take_succ_cons, List.take_succ_cons,
        List.take_succ_cons]
      have := isValidUtf8_enc_append _ hsc _ hval
      rw [henc] at this
      simpa using this
  | case15 i b h0 h2n h3n hr c2 hv c3 hc c4 rest2 hd =>
    have hrv := rv_four_bad4 i b c2 c3 c4 rest2 hr.1 hr.2 hv hc hd
    refine ⟨?_, ?_⟩
    · intro h; rw [hrv] at h; simp at h
    · intro u e h
      rw [hrv] at h
      simp only [Utf8Result.err.injEq] at h
      obtain ⟨h1, h2⟩ := h
      subst h1
      subst h2
      refine ⟨le_refl _, by simp, by simpa using isValidUtf8_nil, ?_⟩
      intro n hn
      first
      | exact Option.noConfusion hn
      | (simp only [Option.some.injEq] at hn; omega)
  | case16 i b h0 h2n h3n hr c2 hv c3 rest2 hc =>
    have hrv := rv_four_bad3 i b c2 c3 rest2 hr.1 hr.2 hv hc
    refine ⟨?_, ?_⟩
    · intro h; rw [hrv] at h; simp at h
    · intro u e h
      rw [hrv] at h
      simp only [Utf8Result.err.injEq] at h
      obtain ⟨h1, h2⟩ := h
      subst h1
      subst h2
      refine ⟨le_refl _, by simp, by simpa using isValidUtf8_nil, ?_⟩
      intro n hn
      first
      | exact Option.noConfusion hn
      | (simp only [Option.some.injEq] at hn; omega)
  | case17 i b h0 h2n h3n hr c2 rest2 hv =>
    have hrv := rv_four_bad2 i b c2 rest2 hr.1 hr.2 hv
    refine ⟨?_, ?_⟩
    · intro h; rw [hrv] at h; simp at h
    · intro u e h
      rw [hrv] at h
      simp only [Utf8Result.err.injEq] at h
      obtain ⟨h1, h2⟩ := h
      subst h1
      subst h2
      refine ⟨le_refl _, by simp, by simpa using isValidUtf8_nil, ?_⟩
      intro n hn
      first
      | exact Option.noConfusion hn
      | (simp only [Option.some.injEq] at hn; omega)
  | case18 i b rest h0 h2n h3n h4n =>
    have hrv := rv_bad_lead i b rest (by unfold badLead; omega)
    refine ⟨?_, ?_⟩
    · intro h; rw [hrv] at h; simp at h
    · intro u e h
      rw [hrv] at h
      simp only [Utf8Result.err.injEq] at h
      obtain ⟨h1, h2⟩ := h
      subst h1
      subst h2
      refine ⟨le_refl _, by simp, by simpa using isValidUtf8_nil, ?_⟩
      intro n hn
      first
      | exact Option.noConfusion hn
      | (simp only [Option.some.injEq] at hn; omega)

/-- Unfolding of `extract_utf8` when validation succeeds. -/
theorem extract_utf8_of_ok (src : List Nat)
    (h : runValidation 0 src = .ok) :
    extract_utf8 src = (.ok (some ⟨src⟩), []) := by
  unfold extract_utf8
  rw [h]

/-- Unfolding of `extract_utf8` on an incomplete trailing sequence. -/
theorem extract_utf8_of_incomplete (src : List Nat) (v : Nat)
    (h : runValidation 0 src = .err v none) :
    extract_utf8 src =
      (.ok (if v = 0 then none else some ⟨src.take v⟩), src.drop v) := by
  unfold extract_utf8
  rw [h]

/-- Unfolding of `extract_utf8` on a determinate error. -/
theorem extract_utf8_of_err (src : List Nat) (v n : Nat)
    (h : runValidation 0 src = .err v (some n)) :
    extract_utf8 src =
      (.error ⟨if v = 0 then none else some ⟨src.take v⟩, n⟩,
        src.drop v) := by
  unfold extract_utf8
  rw [h]

/-- Claim C1: for every buffer, the bytes of the extracted prefix chunk
(from the Ok payload or the error's extracted field, empty when absent)
concatenated with the bytes remaining in the buffer after the call equal
the buffer's original contents, whether the call returns Ok or Err. -/
theorem extract_utf8_no_byte_loss (src : List Nat) :
    resultExtractedBytes (extract_utf8 src).1 ++ (extract_utf8 src).2 = src := by
  unfold extract_utf8
  cases h : runValidation 0 src with
  | ok => simp [resultExtractedBytes]
  | err v e =>
    cases e with
    | none =>
      by_cases hv : v = 0
      · simp [hv, resultExtractedBytes]
      · simp [hv, resultExtractedBytes]
    | some n =>
      by_cases hv : v = 0
      · simp [hv, resultExtractedBytes]
      · simp [hv, resultExtractedBytes]

/-- Claim C2: for every buffer whose entire contents are valid UTF-8,
`extract_utf8` returns Ok(Some(chunk)) where the chunk's bytes equal the
original buffer's bytes exactly, and the buffer is left empty. -/
theorem extract_utf8_full_valid (src : List Nat) (h : IsValidUtf8 src) :
    extract_utf8 src = (.ok (some ⟨src⟩), []) :=
  extract_utf8_of_ok src (rv_valid_ok src h 0)

/-- Witness for claim C2 at the buffer [0x61] (the letter a). -/
theorem extract_utf8_full_valid_witness :
    extract_utf8 [0x61] = (.ok (some ⟨[0x61]⟩), []) :=
  extract_utf8_full_valid [0x61] ⟨[0x61], by decide, by decide⟩

/-- Claim C3: on a buffer that is a valid UTF-8 part followed by a
truncated multi-byte sequence (a nonempty strict initial segment of some
scalar's encoding), `extract_utf8` returns Ok (not Err) carrying the
extracted valid prefix (None when it is empty), and the incomplete
trailing bytes remain in the buffer untouched. -/
theorem extract_utf8_incomplete_tail (v p : List Nat)
    (hv : IsValidUtf8 v) (hp : EncFragment p) (hne : p ≠ []) :
    extract_utf8 (v ++ p) =
      (.ok (if v = [] then none else some ⟨v⟩), p) := by
  have hrv : runValidation 0 (v ++ p) = .err v.length none := by
    rw [rv_valid_step v hv 0 p]
    simpa using rv_fragment_err p hp hne (0 + v.length)
  rw [extract_utf8_of_incomplete (v ++ p) v.length hrv]
  rw [List.take_left, List.drop_left]
  by_cases h0 : v = []
  · simp [h0]
  · rw [if_neg (by simpa [List.length_eq_zero] using h0), if_neg h0]

/-- Witness for claim C3 at the buffer [0x61, 0xE2]: the letter a followed
by the lone lead byte of the three-byte encoding of the euro sign. -/
theorem extract_utf8_incomplete_tail_witness :
    extract_utf8 [0x61, 0xE2] = (.ok (some ⟨[0x61]⟩), [0xE2]) := by
  have h := extract_utf8_incomplete_tail [0x61] [0xE2]
    ⟨[0x61], by decide, by decide⟩
    ⟨0x20AC, by decide, by decide, by decide⟩ (by decide)
  simpa using h

/-- Claim C5: on a buffer of nonempty valid UTF-8 text followed by the
byte 0x80, `extract_utf8` returns Err with the extracted field holding
exactly the valid prefix and error length 1 (the malformed sequence is the
single stray continuation byte); the buffer afterwards is the original
minus the extracted prefix, so 0x80 is still present and at the front. -/
theorem extract_utf8_mixed (v : List Nat) (hv : IsValidUtf8 v)
    (hne : v ≠ []) :
    extract_utf8 (v ++ [0x80]) = (.error ⟨some ⟨v⟩, 1⟩, [0x80]) := by
  have hrv : runValidation 0 (v ++ [0x80]) = .err v.length (some 1) := by
    rw [rv_valid_step v hv 0 [0x80]]
    simpa using rv_bad_lead (0 + v.length) 0x80 []
      (by unfold badLead; omega)
  rw [extract_utf8_of_err (v ++ [0x80]) v.length 1 hrv]
  rw [List.take_left, List.drop_left]
  rw [if_neg (by simpa [List.length_eq_zero] using hne)]

/-- Witness for claim C5 at the buffer [0x61, 0x80]. -/
theorem extract_utf8_mixed_witness :
    extract_utf8 [0x61, 0x80] = (.error ⟨some ⟨[0x61]⟩, 1⟩, [0x80]) := by
  have h := extract_utf8_mixed [0x61] ⟨[0x61], by decide, by decide⟩
    (by decide)
  simpa using h

/-- Claim C6, counterexample: on an empty buffer `extract_utf8` does not
return Ok(None); the fully-valid arm fires and wraps the (empty) drained
buffer in Some. -/
theorem extract_utf8_empty_not_ok_none :
    ¬ ((extract_utf8 []).1 = Except.ok none) := by
  intro h
  simp [extract_utf8, runValidation] at h

/-- Claim C6, amended: calling `extract_utf8` on an already-empty buffer
returns Ok(Some(chunk)) where the chunk's bytes are empty, and leaves the
buffer empty. -/
theorem extract_utf8_empty :
    extract_utf8 [] = (Except.ok (some ⟨[]⟩), []) := rfl

/-- Claim C9: converting a chunk to an owned string and back yields a
chunk with byte-identical content. -/
theorem strchunk_string_round_trip (c : StrChunk) :
    strChunkFromString (stringFromStrChunk c) = c := rfl

/-- Claim C10: whenever `extract_utf8` returns Err, the error length of
the returned error is at least 1 and at most 3. -/
theorem extract_utf8_error_len_bounds (src : List Nat)
    (e : ExtractUtf8Error) (h : (extract_utf8 src).1 = .error e) :
    1 ≤ e.error_len ∧ e.error_len ≤ 3 := by
  cases hrv : runValidation 0 src with
  | ok =>
    rw [extract_utf8_of_ok src hrv] at h
    simp at h
  | err v el =>
    cases el with
    | none =>
      rw [extract_utf8_of_incomplete src v hrv] at h
      simp at h
    | some n =>
      rw [extract_utf8_of_err src v n hrv] at h
      simp only [Except.error.injEq] at h
      subst h
      have hbnd := ((rv_sound 0 src).2 v (some n) hrv).2.2.2
      simpa using hbnd n rfl

/-- Witness for claim C10 at the buffer [0x80]. -/
theorem extract_utf8_error_len_bounds_witness :
    1 ≤ (ExtractUtf8Error.mk none 1).error_len ∧
    (ExtractUtf8Error.mk none 1).error_len ≤ 3 :=
  extract_utf8_error_len_bounds [0x80] ⟨none, 1⟩ rfl

/-- Claim C7: every chunk produced through a public construction path
(`from_static`, conversion from an owned string or string slice,
`extract_utf8` including the chunk carried inside an error, and character
iteration through the builder) has byte contents that decode as valid
UTF-8 end to end with no partial trailing sequence, which is what makes
the unchecked text-view accessors safe. String-typed inputs are valid by
the source language's type system, which is modelled as a validity
hypothesis on their bytes. -/
theorem strchunk_invariant :
    (∀ s, IsValidUtf8 s → IsValidUtf8 (StrChunk.from_static s).bytes) ∧
    (∀ s, IsValidUtf8 s → IsValidUtf8 (strChunkFromString s).bytes) ∧
    (∀ s, IsValidUtf8 s → IsValidUtf8 (strChunkFromStr s).bytes) ∧
    (∀ src c, (extract_utf8 src).1 = .ok (some c) →
      IsValidUtf8 c.bytes) ∧
    (∀ src e c, (extract_utf8 src).1 = .error e → e.extracted = some c →
      IsValidUtf8 c.bytes) ∧
    (∀ cs, (∀ x ∈ cs, IsScalar x) →
      IsValidUtf8 (strChunkFromChars cs).bytes) := by
  refine ⟨fun s h => h, fun s h => h, fun s h => h, ?_, ?_, ?_⟩
  · intro src c h
    cases hrv : runValidation 0 src with
    | ok =>
      rw [extract_utf8_of_ok src hrv] at h
      simp only [Except.ok.injEq, Option.some.injEq] at h
      subst h
      exact (rv_sound 0 src).1 hrv
    | err v el =>
      cases el with
      | none =>
        rw [extract_utf8_of_incomplete src v hrv] at h
        by_cases hv : v = 0
        · rw [if_pos hv] at h
          simp at h
        · rw [if_neg hv] at h
          simp only [Except.ok.injEq, Option.some.injEq] at h
          subst h
          have := ((rv_sound 0 src).2 v none hrv).2.2.1
          simpa using this
      | some n =>
        rw [extract_utf8_of_err src v n hrv] at h
        simp at h
  · intro src e c h hex
    cases hrv : runValidation 0 src with
    | ok =>
      rw [extract_utf8_of_ok src hrv] at h
      simp at h
    | err v el =>
      cases el with
      | none =>
        rw [extract_utf8_of_incomplete src v hrv] at h
        simp at h
      | some n =>
        rw [extract_utf8_of_err src v n hrv] at h
        simp only [Except.error.injEq] at h
        subst h
        by_cases hv : v = 0
        · rw [show (ExtractUtf8Error.mk
              (if v = 0 then none else some ⟨src.take v⟩) n).extracted
              = if v = 0 then none else some ⟨src.take v⟩ from rfl,
            if_pos hv] at hex
          simp at hex
        · rw [show (ExtractUtf8Error.mk
              (if v = 0 then none else some ⟨src.take v⟩) n).extracted
              = if v = 0 then none else some ⟨src.take v⟩ from rfl,
            if_neg hv] at hex
          simp only [Option.some.injEq] at hex
          subst hex
          have := ((rv_sound 0 src).2 v (some n) hrv).2.2.1
          simpa using this
  · intro cs h
    exact ⟨cs, h, rfl⟩

/-- Witness for claim C7: each construction path instantiated on a
concrete input. -/
theorem strchunk_invariant_witness :
    IsValidUtf8 (StrChunk.from_static [0x61]).bytes ∧
    IsValidUtf8 (strChunkFromString [0x61]).bytes ∧
    IsValidUtf8 (strChunkFromStr [0x61]).bytes ∧
    IsValidUtf8 (StrChunk.mk [0x61]).bytes ∧
    IsValidUtf8 (StrChunk.mk [0x62]).bytes ∧
    IsValidUtf8 (strChunkFromChars [0x41]).bytes := by
  have hval : IsValidUtf8 [0x61] := ⟨[0x61], by decide, by decide⟩
  exact ⟨strchunk_invariant.1 [0x61] hval,
    strchunk_invariant.2.1 [0x61] hval,
    strchunk_invariant.2.2.1 [0x61] hval,
    strchunk_invariant.2.2.2.1 [0x61] ⟨[0x61]⟩ rfl,
    strchunk_invariant.2.2.2.2.1 [0x62, 0x80] ⟨some ⟨[0x62]⟩, 1⟩ ⟨[0x62]⟩
      rfl rfl,
    strchunk_invariant.2.2.2.2.2 [0x41] (by decide)⟩

/-- Splitting the concatenated encodings of a scalar sequence at an
arbitrary byte offset lands either exactly on a character boundary, or
inside one character whose encoding is cut into two nonempty parts. -/
theorem flatten_take_split (cs : List Nat) (k : Nat)
    (hk : k ≤ ((cs.map encodeChar).flatten).length) :
    (∃ cs1 cs2, cs = cs1 ++ cs2 ∧
      ((cs.map encodeChar).flatten).take k = (cs1.map encodeChar).flatten ∧
      ((cs.map encodeChar).flatten).drop k = (cs2.map encodeChar).flatten) ∨
    (∃ cs1 c cs2 p q, cs = cs1 ++ c :: cs2 ∧ p ≠ [] ∧ q ≠ [] ∧
      p ++ q = encodeChar c ∧
      ((cs.map encodeChar).flatten).take k
        = (cs1.map encodeChar).flatten ++ p ∧
      ((cs.map encodeChar).flatten).drop k
        = q ++ (cs2.map encodeChar).flatten) := by
  induction cs generalizing k with
  | nil =>
    left
    have hk0 : k = 0 := by simpa using hk
    subst hk0
    exact ⟨[], [], rfl, by simp, by simp⟩
  | cons c cs ih =>
    by_cases hk0 : k = 0
    · left
      subst hk0
      exact ⟨[], c :: cs, rfl, by simp, by simp⟩
    · by_cases hkw : k < (encodeChar c).length
      · right
        refine ⟨[], c, cs, (encodeChar c).take k, (encodeChar c).drop k,
          rfl, ?_, ?_, List.take_append_drop k _, ?_, ?_⟩
        · have hlen : ((encodeChar c).take k).length = k := by
            rw [List.length_take]
            omega
          intro hcon
          rw [hcon] at hlen
          simp at hlen
          omega
        · have hlen : ((encodeChar c).drop k).length
              = (encodeChar c).length - k := List.length_drop k _
          intro hcon
          rw [hcon] at hlen
          simp at hlen
          omega
        · simp only [List.map_cons, List.flatten_cons, List.map_nil,
            List.flatten_nil, List.nil_append]
          rw [List.take_append_of_le_length (by omega)]
        · simp only [List.map_cons, List.flatten_cons, List.map_nil,
            List.flatten_nil]
          rw [List.drop_append_of_le_length (by omega)]
      · have hw : (encodeChar c).length ≤ k := by omega
        have hk2 : k - (encodeChar c).length
            ≤ ((cs.map encodeChar).flatten).length := by
          simp only [List.map_cons, List.flatten_cons,
            List.length_append] at hk
          omega
        have hkeq : k = (encodeChar c).length
            + (k - (encodeChar c).length) := by omega
        rcases ih (k - (encodeChar c).length) hk2 with
          ⟨cs1, cs2, hsplit, htake, hdrop⟩ |
          ⟨cs1, c1, cs2, p, q, hsplit, hp, hq, hpq, htake, hdrop⟩
        · left
          refine ⟨c :: cs1, cs2, by simp [hsplit], ?_, ?_⟩
          · simp only [List.map_cons, List.flatten_cons]
            rw [hkeq, List.take_append, htake]
          · simp only [List.map_cons, List.flatten_cons]
            rw [hkeq, List.drop_append, hdrop]
        · right
          refine ⟨c :: cs1, c1, cs2, p, q, by simp [hsplit], hp, hq, hpq,
            ?_, ?_⟩
          · simp only [List.map_cons, List.flatten_cons]
            rw [hkeq, List.take_append, htake, List.append_assoc]
          · simp only [List.map_cons, List.flatten_cons]
            rw [hkeq, List.drop_append, hdrop]

/-- Claim C8: for every valid UTF-8 string (a sequence of scalar values)
and every byte offset into it, extracting from the first part and then
from the leftover bytes joined with the second part produces no Err on
either call, and the concatenation of all extracted chunk bytes equals the
original string's bytes. -/
theorem extract_utf8_resumable (cs : List Nat)
    (hcs : ∀ c ∈ cs, IsScalar c) (k : Nat)
    (hk : k ≤ ((cs.map encodeChar).flatten).length) :
    ∃ e1 e2,
      (extract_utf8 (((cs.map encodeChar).flatten).take k)).1 = .ok e1 ∧
      (extract_utf8 ((extract_utf8 (((cs.map encodeChar).flatten).take k)).2
        ++ ((cs.map encodeChar).flatten).drop k)).1 = .ok e2 ∧
      optBytes e1 ++ optBytes e2 = (cs.map encodeChar).flatten := by
  rcases flatten_take_split cs k hk with
    ⟨cs1, cs2, hsplit, htake, hdrop⟩ |
    ⟨cs1, c, cs2, p, q, hsplit, hp, hq, hpq, htake, hdrop⟩
  · have hsub1 : ∀ x ∈ cs1, IsScalar x := by
      intro x hx
      apply hcs
      rw [hsplit]
      exact List.mem_append_left _ hx
    have hsub2 : ∀ x ∈ cs2, IsScalar x := by
      intro x hx
      apply hcs
      rw [hsplit]
      exact List.mem_append_right _ hx
    have hv1 : IsValidUtf8 (cs1.map encodeChar).flatten := ⟨cs1, hsub1, rfl⟩
    have hv2 : IsValidUtf8 (cs2.map encodeChar).flatten := ⟨cs2, hsub2, rfl⟩
    rw [htake, hdrop]
    rw [extract_utf8_of_ok _ (rv_valid_ok _ hv1 0)]
    refine ⟨some ⟨(cs1.map encodeChar).flatten⟩,
      some ⟨(cs2.map encodeChar).flatten⟩, rfl, ?_, ?_⟩
    · show (extract_utf8 ([] ++ (cs2.map encodeChar).flatten)).1 = _
      rw [List.nil_append, extract_utf8_of_ok _ (rv_valid_ok _ hv2 0)]
    · simp [optBytes, hsplit]
  · have hsub1 : ∀ x ∈ cs1, IsScalar x := by
      intro x hx
      apply hcs
      rw [hsplit]
      exact List.mem_append_left _ hx
    have hsub2 : ∀ x ∈ cs2, IsScalar x := by
      intro x hx
      apply hcs
      rw [hsplit]
      exact List.mem_append_right _ (List.mem_cons_of_mem _ hx)
    have hv1 : IsValidUtf8 (cs1.map encodeChar).flatten := ⟨cs1, hsub1, rfl⟩
    have hv2 : IsValidUtf8 (cs2.map encodeChar).flatten := ⟨cs2, hsub2, rfl⟩
    have hc : IsScalar c := by
      apply hcs
      rw [hsplit]
      exact List.mem_append_right _ (List.mem_cons_self _ _)
    have hfrag : EncFragment p := by
      refine ⟨c, hc, ⟨q, hpq⟩, ?_⟩
      have := congrArg List.length hpq
      simp only [List.length_append] at this
      have hq1 : 1 ≤ q.length := by
        cases q with
        | nil => simp at hq
        | cons a l => simp
      omega
    have hrv1 : runValidation 0 ((cs1.map encodeChar).flatten ++ p)
        = .err ((cs1.map encodeChar).flatten).length none := by
      rw [rv_valid_step _ hv1 0 p]
      simpa using rv_fragment_err p hfrag hp
        (0 + ((cs1.map encodeChar).flatten).length)
    have hv3 : IsValidUtf8 (encodeChar c ++ (cs2.map encodeChar).flatten) :=
      isValidUtf8_enc_append c hc _ hv2
    rw [htake, hdrop]
    rw [extract_utf8_of_incomplete _ _ hrv1]
    rw [List.take_left, List.drop_left]
    refine ⟨if ((cs1.map encodeChar).flatten).length = 0 then none
        else some ⟨(cs1.map encodeChar).flatten⟩,
      some ⟨encodeChar c ++ (cs2.map encodeChar).flatten⟩, rfl, ?_, ?_⟩
    · show (extract_utf8 (p ++ (q ++ (cs2.map encodeChar).flatten))).1 = _
      rw [← List.append_assoc, hpq,
        extract_utf8_of_ok _ (rv_valid_ok _ hv3 0)]
    · by_cases hL : ((cs1.map encodeChar).flatten).length = 0
      · have hnil : (cs1.map encodeChar).flatten = [] :=
          List.length_eq_zero.mp hL
        rw [if_pos hL]
        simp [optBytes, hsplit, hnil]
      · rw [if_neg hL]
        simp [optBytes, hsplit]

/-- Witness for claim C8: the three-byte euro sign split after its first
byte; the first call extracts nothing and the second call extracts the
whole character. -/
theorem extract_utf8_resumable_witness :
    ∃ e1 e2,
      (extract_utf8 ((([0x20AC].map encodeChar).flatten).take 1)).1
        = .ok e1 ∧
      (extract_utf8
        ((extract_utf8 ((([0x20AC].map encodeChar).flatten).take 1)).2
          ++ (([0x20AC].map encodeChar).flatten).drop 1)).1 = .ok e2 ∧
      optBytes e1 ++ optBytes e2 = ([0x20AC].map encodeChar).flatten :=
  extract_utf8_resumable [0x20AC] (by decide) 1 (by decide)

theorem isValidUtf8_single (c : Nat) (hc : IsScalar c) :
    IsValidUtf8 (encodeChar c) := by
  have h := isValidUtf8_enc_append c hc [] isValidUtf8_nil
  simpa using h

theorem extendsToValid_of_fragment (p : List Nat) (h : EncFragment p) :
    ExtendsToValid p := by
  obtain ⟨c, hc, ⟨q, hq⟩, hlen⟩ := h
  refine ⟨q, ?_⟩
  rw [hq]
  exact isValidUtf8_single c hc

theorem enc_shape (c : Nat) (hc : IsScalar c) :
    (c < 0x80 ∧ encodeChar c = [c]) ∨
    (∃ b c2, encodeChar c = [b, c2] ∧ 0xC2 ≤ b ∧ b ≤ 0xDF ∧ isCont c2) ∨
    (∃ b c2 c3, encodeChar c = [b, c2, c3] ∧ 0xE0 ≤ b ∧ b ≤ 0xEF ∧
      validSecond3 b c2 ∧ isCont c3) ∨
    (∃ b c2 c3 c4, encodeChar c = [b, c2, c3, c4] ∧ 0xF0 ≤ b ∧ b ≤ 0xF4 ∧
      validSecond4 b c2 ∧ isCont c3 ∧ isCont c4) := by
  obtain ⟨h1, h2⟩ := hc
  by_cases ha : c < 0x80
  · exact Or.inl ⟨ha, encodeChar_one c ha⟩
  · by_cases hb : c < 0x800
    · refine Or.inr (Or.inl ⟨_, _, encodeChar_two c (by omega) hb,
        by omega, by omega, ?_⟩)
      unfold isCont
      omega
    · by_cases hcc : c < 0x10000
      · refine Or.inr (Or.inr (Or.inl ⟨_, _, _,
          encodeChar_three c (by omega) hcc, by omega, by omega, ?_, ?_⟩))
        · unfold validSecond3
          omega
        · unfold isCont
          omega
      · refine Or.inr (Or.inr (Or.inr ⟨_, _, _, _,
          encodeChar_four c (by omega), by omega, by omega, ?_, ?_, ?_⟩))
        · unfold validSecond4
          omega
        · unfold isCont
          omega
        · unfold isCont
          omega

theorem encFragment_cases (p : List Nat) (hne : p ≠ [])
    (hfrag : EncFragment p) :
    (∃ b, p = [b] ∧ ((0xC2 ≤ b ∧ b ≤ 0xDF) ∨ (0xE0 ≤ b ∧ b ≤ 0xEF) ∨
      (0xF0 ≤ b ∧ b ≤ 0xF4))) ∨
    (∃ b c2, p = [b, c2] ∧ ((0xE0 ≤ b ∧ b ≤ 0xEF ∧ validSecond3 b c2) ∨
      (0xF0 ≤ b ∧ b ≤ 0xF4 ∧ validSecond4 b c2))) ∨
    (∃ b c2 c3, p = [b, c2, c3] ∧ 0xF0 ≤ b ∧ b ≤ 0xF4 ∧
      validSecond4 b c2 ∧ isCont c3) := by
  obtain ⟨c, hc, hpre, hlen⟩ := hfrag
  have hptake := List.prefix_iff_eq_take.mp hpre
  have hp1 : 1 ≤ p.length := by
    cases p with
    | nil => simp at hne
    | cons a l => simp
  rcases enc_shape c hc with ⟨hlt, henc⟩ |
    ⟨b, c2, henc, hb1, hb2, hcont⟩ |
    ⟨b, c2, c3, henc, hb1, hb2, hvs, hcont⟩ |
    ⟨b, c2, c3, c4, henc, hb1, hb2, hvs, hc3, hc4⟩
  · rw [henc] at hlen
    simp only [List.length_singleton] at hlen
    omega
  · rw [henc] at hlen hptake
    simp at hlen
    have hl : p.length = 1 := by omega
    rw [hl] at hptake
    simp at hptake
    exact Or.inl ⟨b, hptake, Or.inl ⟨hb1, hb2⟩⟩
  · rw [henc] at hlen hptake
    simp at hlen
    rcases (by omega : p.length = 1 ∨ p.length = 2) with hl | hl <;>
      rw [hl] at hptake <;> simp at hptake
    · exact Or.inl ⟨b, hptake, Or.inr (Or.inl ⟨hb1, hb2⟩)⟩
    · exact Or.inr (Or.inl ⟨b, c2, hptake, Or.inl ⟨hb1, hb2, hvs⟩⟩)
  · rw [henc] at hlen hptake
    simp at hlen
    rcases (by omega : p.length = 1 ∨ p.length = 2 ∨ p.length = 3)
      with hl | hl | hl <;> rw [hl] at hptake <;> simp at hptake
    · exact Or.inl ⟨b, hptake, Or.inr (Or.inr ⟨hb1, hb2⟩)⟩
    · exact Or.inr (Or.inl ⟨b, c2, hptake, Or.inr ⟨hb1, hb2, hvs⟩⟩)
    · exact Or.inr (Or.inr ⟨b, c2, c3, hptake, hb1, hb2, hvs, hc3⟩)

/-- Characterization of encoding truncations that are at least two bytes
long: only a three-byte character cut after its second byte or a four-byte
character cut after its second or third byte. -/
theorem encFragment_two (b c2 : Nat) (t : List Nat)
    (hfrag : EncFragment (b :: c2 :: t)) :
    (0xE0 ≤ b ∧ b ≤ 0xEF ∧ validSecond3 b c2 ∧ t = []) ∨
    (0xF0 ≤ b ∧ b ≤ 0xF4 ∧ validSecond4 b c2 ∧
      (t = [] ∨ ∃ c3, t = [c3] ∧ isCont c3)) := by
  rcases encFragment_cases (b :: c2 :: t) (by simp) hfrag with
    ⟨b1, heq, hor⟩ | ⟨b1, c21, heq, hor⟩ | ⟨b1, c21, c31, heq, h1, h2, h3, h4⟩
  · simp at heq
  · simp only [List.cons.injEq] at heq
    obtain ⟨rfl, rfl, rfl⟩ := heq
    rcases hor with ⟨ha, hb, hv⟩ | ⟨ha, hb, hv⟩
    · exact Or.inl ⟨ha, hb, hv, rfl⟩
    · exact Or.inr ⟨ha, hb, hv, Or.inl rfl⟩
  · simp only [List.cons.injEq] at heq
    obtain ⟨rfl, rfl, rfl⟩ := heq
    exact Or.inr ⟨h1, h2, h3, Or.inr ⟨c31, rfl, h4⟩⟩

theorem second3_exists (b : Nat) (h1 : 0xE0 ≤ b) (h2 : b ≤ 0xEF) :
    ∃ c2, validSecond3 b c2 := by
  by_cases hb : b = 0xE0
  · refine ⟨0xA0, ?_⟩
    unfold validSecond3
    omega
  · refine ⟨0x80, ?_⟩
    unfold validSecond3
    omega

theorem second4_exists (b : Nat) (h1 : 0xF0 ≤ b) (h2 : b ≤ 0xF4) :
    ∃ c2, validSecond4 b c2 := by
  by_cases hb : b = 0xF0
  · refine ⟨0x90, ?_⟩
    unfold validSecond4
    omega
  · refine ⟨0x80, ?_⟩
    unfold validSecond4
    omega

theorem encFragment_of_prefix (src : List Nat) (c : Nat) (hc : IsScalar c)
    (hpre : src <+: encodeChar c)
    (hlt : src.length < (encodeChar c).length)
    (k : Nat) (hk : k ≤ src.length) : EncFragment (src.take k) := by
  refine ⟨c, hc, (List.take_prefix k src).trans hpre, ?_⟩
  rw [List.length_take]
  omega

/-- Claim C4: on a buffer that begins with a byte sequence that can never
be completed into valid UTF-8 (and with no valid bytes preceding the
corruption: no nonempty prefix of the buffer is valid), `extract_utf8`
returns Err with extracted = None, leaves the buffer untouched, and
reports an error length equal to the length of the malformed run — the
maximal subpart of the ill-formed sequence (see `IsMalformedRun`). -/
theorem extract_utf8_corrupt_start (src : List Nat)
    (hstart : ∃ k, 1 ≤ k ∧ k ≤ src.length ∧ ¬ ExtendsToValid (src.take k))
    (hnov : ∀ m, 1 ≤ m → m ≤ src.length → ¬ IsValidUtf8 (src.take m)) :
    ∃ n, (extract_utf8 src).1 = .error ⟨none, n⟩ ∧
      (extract_utf8 src).2 = src ∧ IsMalformedRun src n := by
  obtain ⟨k, hk1, hk2, hkext⟩ := hstart
  cases src with
  | nil =>
    simp at hk2
    omega
  | cons b rest =>
  by_cases hb0 : b < 0x80
  · exfalso
    apply hnov 1 (by omega) (by simp only [List.length_cons]; omega)
    have hv : IsValidUtf8 [b] := by
      have h := isValidUtf8_single b ⟨by omega, by omega⟩
      rwa [encodeChar_one b hb0] at h
    simpa using hv
  · by_cases hb2 : 0xC2 ≤ b ∧ b ≤ 0xDF
    · cases rest with
      | nil =>
        exfalso
        obtain ⟨hsc, henc⟩ := enc_two_eq b 0x80 hb2.1 hb2.2
          (by unfold isCont; omega)
        apply hkext
        apply extendsToValid_of_fragment
        refine encFragment_of_prefix [b] _ hsc ?_ ?_ k (by simpa using hk2)
        · rw [henc]
          exact ⟨[0x80], rfl⟩
        · rw [henc]
          simp
      | cons c2 rest2 =>
        by_cases hcont : isCont c2
        · exfalso
          obtain ⟨hsc, henc⟩ := enc_two_eq b c2 hb2.1 hb2.2 hcont
          apply hnov 2 (by omega) (by simp only [List.length_cons]; omega)
          have hv := isValidUtf8_single _ hsc
          rw [henc] at hv
          simpa using hv
        · have hrv := rv_two_bad 0 b c2 rest2 hb2.1 hb2.2 hcont
          have hex := extract_utf8_of_err _ 0 1 hrv
          refine ⟨1, by rw [hex]; simp, by rw [hex]; simp, le_refl 1,
            by simp only [List.length_cons]; omega, Or.inl rfl, ?_⟩
          intro m hm1 hm2 hfr
          obtain ⟨m', rfl⟩ : ∃ m', m = m' + 2 := ⟨m - 2, by omega⟩
          rw [show m' + 2 = m' + 1 + 1 from rfl, List.take_succ_cons,
            List.take_succ_cons] at hfr
          rcases encFragment_two b c2 _ hfr with ⟨ha, hb', hv, ht⟩ |
            ⟨ha, hb', hv, ht⟩
          · omega
          · omega
    · by_cases hb3 : 0xE0 ≤ b ∧ b ≤ 0xEF
      · cases rest with
        | nil =>
          exfalso
          obtain ⟨c2v, hc2v⟩ := second3_exists b hb3.1 hb3.2
          obtain ⟨hsc, henc⟩ := enc_three_eq b c2v 0x80 hb3.1 hb3.2 hc2v
            (by unfold isCont; omega)
          apply hkext
          apply extendsToValid_of_fragment
          refine encFragment_of_prefix [b] _ hsc ?_ ?_ k (by simpa using hk2)
          · rw [henc]
            exact ⟨[c2v, 0x80], rfl⟩
          · rw [henc]
            simp
        | cons c2 rest2 =>
          by_cases hvs : validSecond3 b c2
          · cases rest2 with
            | nil =>
              exfalso
              obtain ⟨hsc, henc⟩ := enc_three_eq b c2 0x80 hb3.1 hb3.2 hvs
                (by unfold isCont; omega)
              apply hkext
              apply extendsToValid_of_fragment
              refine encFragment_of_prefix [b, c2] _ hsc ?_ ?_ k
                (by simpa using hk2)
              · rw [henc]
                exact ⟨[0x80], rfl⟩
              · rw [henc]
                simp
            | cons c3 rest3 =>
              by_cases hcont3 : isCont c3
              · exfalso
                obtain ⟨hsc, henc⟩ := enc_three_eq b c2 c3 hb3.1 hb3.2 hvs
                  hcont3
                apply hnov 3 (by omega)
                  (by simp only [List.length_cons]; omega)
                have hv := isValidUtf8_single _ hsc
                rw [henc] at hv
                simpa using hv
              · have hrv := rv_three_bad3 0 b c2 c3 rest3 hb3.1 hb3.2 hvs
                  hcont3
                have hex := extract_utf8_of_err _ 0 2 hrv
                obtain ⟨hsc, henc⟩ := enc_three_eq b c2 0x80 hb3.1 hb3.2 hvs
                  (by unfold isCont; omega)
                refine ⟨2, by rw [hex]; simp, by rw [hex]; simp, by omega,
                  by simp only [List.length_cons]; omega, Or.inr ?_, ?_⟩
                · have hfr2 : EncFragment [b, c2] := by
                    refine ⟨_, hsc, ?_, ?_⟩
                    · rw [henc]
                      exact ⟨[0x80], rfl⟩
                    · rw [henc]
                      simp
                  simpa using hfr2
                · intro m hm1 hm2 hfr
                  obtain ⟨m', rfl⟩ : ∃ m', m = m' + 3 := ⟨m - 3, by omega⟩
                  rw [show m' + 3 = m' + 1 + 1 + 1 from rfl,
                    List.take_succ_cons, List.take_succ_cons,
                    List.take_succ_cons] at hfr
                  rcases encFragment_two b c2 _ hfr with ⟨ha, hb', hv, ht⟩ |
                    ⟨ha, hb', hv, ht⟩
                  · simp at ht
                  · omega
          · have hrv := rv_three_bad2 0 b c2 rest2 hb3.1 hb3.2 hvs
            have hex := extract_utf8_of_err _ 0 1 hrv
            refine ⟨1, by rw [hex]; simp, by rw [hex]; simp, le_refl 1,
              by simp only [List.length_cons]; omega, Or.inl rfl, ?_⟩
            intro m hm1 hm2 hfr
            obtain ⟨m', rfl⟩ : ∃ m', m = m' + 2 := ⟨m - 2, by omega⟩
            rw [show m' + 2 = m' + 1 + 1 from rfl, List.take_succ_cons,
              List.take_succ_cons] at hfr
            rcases encFragment_two b c2 _ hfr with ⟨ha, hb', hv, ht⟩ |
              ⟨ha, hb', hv, ht⟩
            · exact hvs hv
            · omega
      · by_cases hb4 : 0xF0 ≤ b ∧ b ≤ 0xF4
        · cases rest with
          | nil =>
            exfalso
            obtain ⟨c2v, hc2v⟩ := second4_exists b hb4.1 hb4.2
            obtain ⟨hsc, henc⟩ := enc_four_eq b c2v 0x80 0x80 hb4.1 hb4.2
              hc2v (by unfold isCont; omega) (by unfold isCont; omega)
            apply hkext
            apply extendsToValid_of_fragment
            refine encFragment_of_prefix [b] _ hsc ?_ ?_ k
              (by simpa using hk2)
            · rw [henc]
              exact ⟨[c2v, 0x80, 0x80], rfl⟩
            · rw [henc]
              simp
          | cons c2 rest2 =>
            by_cases hvs : validSecond4 b c2
            · cases rest2 with
              | nil =>
                exfalso
                obtain ⟨hsc, henc⟩ := enc_four_eq b c2 0x80 0x80 hb4.1
                  hb4.2 hvs (by unfold isCont; omega)
                  (by unfold isCont; omega)
                apply hkext
                apply extendsToValid_of_fragment
                refine encFragment_of_prefix [b, c2] _ hsc ?_ ?_ k
                  (by simpa using hk2)
                · rw [henc]
                  exact ⟨[0x80, 0x80], rfl⟩
                · rw [henc]
                  simp
              | cons c3 rest3 =>
                by_cases hcont3 : isCont c3
                · cases rest3 with
                  | nil =>
                    exfalso
                    obtain ⟨hsc, henc⟩ := enc_four_eq b c2 c3 0x80 hb4.1
                      hb4.2 hvs hcont3 (by unfold isCont; omega)
                    apply hkext
                    apply extendsToValid_of_fragment
                    refine encFragment_of_prefix [b, c2, c3] _ hsc ?_ ?_ k
                      (by simpa using hk2)
                    · rw [henc]
                      exact ⟨[0x80], rfl⟩
                    · rw [henc]
                      simp
                  | cons c4 rest4 =>
                    by_cases hcont4 : isCont c4
                    · exfalso
                      obtain ⟨hsc, henc⟩ := enc_four_eq b c2 c3 c4 hb4.1
                        hb4.2 hvs hcont3 hcont4
                      apply hnov 4 (by omega)
                        (by simp only [List.length_cons]; omega)
                      have hv := isValidUtf8_single _ hsc
                      rw [henc] at hv
                      simpa using hv
                    · have hrv := rv_four_bad4 0 b c2 c3 c4 rest4 hb4.1
                        hb4.2 hvs hcont3 hcont4
                      have hex := extract_utf8_of_err _ 0 3 hrv
                      obtain ⟨hsc, henc⟩ := enc_four_eq b c2 c3 0x80 hb4.1
                        hb4.2 hvs hcont3 (by unfold isCont; omega)
                      refine ⟨3, by rw [hex]; simp, by rw [hex]; simp,
                        by omega, by simp only [List.length_cons]; omega,
                        Or.inr ?_, ?_⟩
                      · have hfr2 : EncFragment [b, c2, c3] := by
                          refine ⟨_, hsc, ?_, ?_⟩
                          · rw [henc]
                            exact ⟨[0x80], rfl⟩
                          · rw [henc]
                            simp
                        simpa using hfr2
                      · intro m hm1 hm2 hfr
                        obtain ⟨m', rfl⟩ : ∃ m', m = m' + 4 :=
                          ⟨m - 4, by omega⟩
                        rw [show m' + 4 = m' + 1 + 1 + 1 + 1 from rfl,
                          List.take_succ_cons, List.take_succ_cons,
                          List.take_succ_cons, List.take_succ_cons] at hfr
                        rcases encFragment_two b c2 _ hfr with
                          ⟨ha, hb', hv, ht⟩ | ⟨ha, hb', hv, ht⟩
                        · omega
                        · rcases ht with ht | ⟨c3v, ht, hcv⟩
                          · simp at ht
                          · simp at ht
                · have hrv := rv_four_bad3 0 b c2 c3 rest3 hb4.1 hb4.2
                    hvs hcont3
                  have hex := extract_utf8_of_err _ 0 2 hrv
                  obtain ⟨hsc, henc⟩ := enc_four_eq b c2 0x80 0x80 hb4.1
                    hb4.2 hvs (by unfold isCont; omega)
                    (by unfold isCont; omega)
                  refine ⟨2, by rw [hex]; simp, by rw [hex]; simp,
                    by omega, by simp only [List.length_cons]; omega,
                    Or.inr ?_, ?_⟩
                  · have hfr2 : EncFragment [b, c2] := by
                      refine ⟨_, hsc, ?_, ?_⟩
                      · rw [henc]
                        exact ⟨[0x80, 0x80], rfl⟩
                      · rw [henc]
                        simp
                    simpa using hfr2
                  · intro m hm1 hm2 hfr
                    obtain ⟨m', rfl⟩ : ∃ m', m = m' + 3 := ⟨m - 3, by omega⟩
                    rw [show m' + 3 = m' + 1 + 1 + 1 from rfl,
                      List.take_succ_cons, List.take_succ_cons,
                      List.take_succ_cons] at hfr
                    rcases encFragment_two b c2 _ hfr with
                      ⟨ha, hb', hv, ht⟩ | ⟨ha, hb', hv, ht⟩
                    · omega
                    · rcases ht with ht | ⟨c3v, ht, hcv⟩
                      · simp at ht
                      · simp only [List.cons.injEq] at ht
                        obtain ⟨rfl, ht2⟩ := ht
                        exact hcont3 hcv
            · have hrv := rv_four_bad2 0 b c2 rest2 hb4.1 hb4.2 hvs
              have hex := extract_utf8_of_err _ 0 1 hrv
              refine ⟨1, by rw [hex]; simp, by rw [hex]; simp, le_refl 1,
                by simp only [List.length_cons]; omega, Or.inl rfl, ?_⟩
              intro m hm1 hm2 hfr
              obtain ⟨m', rfl⟩ : ∃ m', m = m' + 2 := ⟨m - 2, by omega⟩
              rw [show m' + 2 = m' + 1 + 1 from rfl, List.take_succ_cons,
                List.take_succ_cons] at hfr
              rcases encFragment_two b c2 _ hfr with ⟨ha, hb', hv, ht⟩ |
                ⟨ha, hb', hv, ht⟩
              · omega
              · exact hvs hv
        · have hbad : badLead b := by
            unfold badLead
            omega
          have hrv := rv_bad_lead 0 b rest hbad
          have hex := extract_utf8_of_err _ 0 1 hrv
          refine ⟨1, by rw [hex]; simp, by rw [hex]; simp, le_refl 1,
            by simp only [List.length_cons]; omega, Or.inl rfl, ?_⟩
          intro m hm1 hm2 hfr
          have hm2' : 2 ≤ (b :: rest).length := by omega
          simp only [List.length_cons] at hm2'
          cases rest with
          | nil =>
            simp only [List.length_cons, List.length_nil] at hm2
            omega
          | cons c2 rest2 =>
            obtain ⟨m', rfl⟩ : ∃ m', m = m' + 2 := ⟨m - 2, by omega⟩
            rw [show m' + 2 = m' + 1 + 1 from rfl, List.take_succ_cons,
              List.take_succ_cons] at hfr
            rcases encFragment_two b c2 _ hfr with ⟨ha, hb', hv, ht⟩ |
              ⟨ha, hb', hv, ht⟩
            · unfold badLead at hbad
              omega
            · unfold badLead at hbad
              omega

/-- Witness for claim C4 at the buffer [0x80] (a bare continuation byte):
the malformed run is the single byte and the reported length is 1. -/
theorem extract_utf8_corrupt_start_witness :
    ∃ n, (extract_utf8 [0x80]).1 = .error ⟨none, n⟩ ∧
      (extract_utf8 [0x80]).2 = [0x80] ∧ IsMalformedRun [0x80] n := by
  apply extract_utf8_corrupt_start [0x80] ?_ ?_
  · refine ⟨1, by omega, by simp, ?_⟩
    intro hcon
    obtain ⟨ext, hval⟩ := hcon
    simp only [List.take_succ_cons, List.take_zero,
      List.singleton_append] at hval
    have hok := rv_valid_ok _ hval 0
    rw [rv_bad_lead 0 0x80 ext (by unfold badLead; omega)] at hok
    exact Utf8Result.noConfusion hok
  · intro m hm1 hm2 hval
    simp only [List.length_cons, List.length_nil] at hm2
    have hm : m = 1 := by omega
    subst hm
    simp only [List.take_succ_cons, List.take_zero] at hval
    have hok := rv_valid_ok _ hval 0
    rw [rv_bad_lead 0 0x80 [] (by unfold badLead; omega)] at hok
    exact Utf8Result.noConfusion hok

end Strchunk
